import Mathlib

/-
Verification of the codelibrary / Global-L0 plane-extraction repository.

Shallow embedding of:
  * codelibrary/visualization/color/rgb32_color.h  (RGB32Color)
  * the weighted-PCA normal estimation header (src/unnamed/part_000,
    geometry/pca_estimate_normals_2d.h): PCAEstimateNormal,
    PCAEstimateNormals, OrientationAwarePCAEstimateNormals
  * the spec-level energy model and label optimizer of the Global-L0
    extractor (the extractor source itself is not part of the visible
    sources; those definitions are modelled from the spec and say so in
    their doc comments).

C++ floating point is embedded as exact real arithmetic; C++ int as Lean
Int with Euclidean division (which agrees with C arithmetic shifts and
bit masks on the inputs used); uint8_t as Fin 256; asserts as Option
results (none = the assertion fires).
-/

/-- 32-bits RGB Color (rgb32_color.h).  The four private fields red_,
green_, blue_, alpha_ are uint8_t values, embedded as Fin 256. -/
structure RGB32Color where
  red_ : Fin 256
  green_ : Fin 256
  blue_ : Fin 256
  alpha_ : Fin 256
deriving DecidableEq

/-- Reinterpretation of a bit pattern, reduced modulo 2 to the 32, as the
value of a signed 32-bit int (two's complement). -/
def toSigned32 (n : ℕ) : ℤ :=
  if n % 2 ^ 32 < 2 ^ 31 then (n % 2 ^ 32 : ℤ) else (n % 2 ^ 32 : ℤ) - 2 ^ 32

/-- RGB32Color::ToInt (rgb32_color.h lines 70-75):
(alpha_ shifted left 24) or (red_ shifted left 16) or (green_ shifted left 8)
or blue_, the signed shifts modeled as arithmetic modulo 2 to the 32. -/
def RGB32Color.ToInt (c : RGB32Color) : ℤ :=
  toSigned32 ((c.alpha_.val <<< 24) ||| (c.red_.val <<< 16) ||| (c.green_.val <<< 8) ||| c.blue_.val)

/-- RGB32Color::RGB32Color(int rgb) (rgb32_color.h lines 41-46):
alpha_ = uint8(rgb arithmetically shifted right 24); red_, green_, blue_ are
the shifted value masked with 0xff.  An arithmetic right shift of an int is
floor division by a power of two, which for a positive divisor is Lean's
Int division; masking a two's-complement value with 0xff is taking the
nonnegative remainder modulo 256, which is Lean's Int `%`. -/
def RGB32Color.ofInt (rgb : ℤ) : RGB32Color where
  alpha_ := ⟨((rgb / 2 ^ 24) % 256).toNat, by omega⟩
  red_ := ⟨((rgb / 2 ^ 16) % 256).toNat, by omega⟩
  green_ := ⟨((rgb / 2 ^ 8) % 256).toNat, by omega⟩
  blue_ := ⟨(rgb % 256).toNat, by omega⟩

/-- RGB32Color::ToGrayScale (rgb32_color.h lines 62-65). -/
def RGB32Color.ToGrayScale (c : RGB32Color) : ℤ :=
  ((c.red_.val : ℤ) * 11 + (c.green_.val : ℤ) * 16 + (c.blue_.val : ℤ) * 5) / 32

/-- 2D point (codelibrary/geometry/kernel/point_2d.h), with the floating
point coordinates embedded as exact reals. -/
structure Point2D where
  x : ℝ
  y : ℝ

/-- 2D vector (codelibrary/geometry/kernel/vector_2d.h). -/
structure Vector2D where
  x : ℝ
  y : ℝ

instance : Inhabited Vector2D := ⟨⟨0, 0⟩⟩

/-- Componentwise vector negation, the C++ unary operator - of Vector2D. -/
def Vector2D.neg (v : Vector2D) : Vector2D := ⟨-v.x, -v.y⟩

instance : Neg Vector2D := ⟨Vector2D.neg⟩

/-- The dot product, the C++ operator * of Vector2D. -/
def Vector2D.dot (u v : Vector2D) : ℝ := u.x * v.x + u.y * v.y

/-- Modelled from the spec: codelibrary/geometry/kernel/center_2d.h is not
under src.  Centroid(points, weights) is the weighted centroid of the
points (the spec describes the covariance as centered at the weighted
centroid): the weight-weighted average of the coordinates. -/
noncomputable def Centroid (points : List Point2D) (weights : List ℝ) : Point2D :=
  ⟨(List.zipWith (fun p w => w * p.x) points weights).sum / weights.sum,
   (List.zipWith (fun p w => w * p.y) points weights).sum / weights.sum⟩

/-- The weight sum accumulated by the loop of PCAEstimateNormal
(src/unnamed/part_000 lines 135-144). -/
def weightSum (points : List Point2D) (weights : List ℝ) : ℝ :=
  (List.zipWith (fun _ w => w) points weights).sum

/-- Entry a of the weighted covariance matrix: the accumulation
a += w * x * x over the centered coordinates (lines 135-144) followed by
the scaling a *= 1/sum (lines 151-154). -/
noncomputable def covA (points : List Point2D) (weights : List ℝ) : ℝ :=
  (List.zipWith
    (fun p w => w * (p.x - (Centroid points weights).x) * (p.x - (Centroid points weights).x))
    points weights).sum * (1 / weightSum points weights)

/-- Entry b of the weighted covariance matrix: b += w * x * y, then the
scaling b *= 1/sum. -/
noncomputable def covB (points : List Point2D) (weights : List ℝ) : ℝ :=
  (List.zipWith
    (fun p w => w * (p.x - (Centroid points weights).x) * (p.y - (Centroid points weights).y))
    points weights).sum * (1 / weightSum points weights)

/-- Entry c of the weighted covariance matrix: c += w * y * y, then the
scaling c *= 1/sum. -/
noncomputable def covC (points : List Point2D) (weights : List ℝ) : ℝ :=
  (List.zipWith
    (fun p w => w * (p.y - (Centroid points weights).y) * (p.y - (Centroid points weights).y))
    points weights).sum * (1 / weightSum points weights)

/-- The closed-form 2x2 symmetric eigensolver of PCAEstimateNormal
(src/unnamed/part_000 lines 156-181): given the scaled covariance entries
a, b, c it computes the rotation (cs, sn) diagonalizing [[a,b],[b,c]] and
returns the column (-sn, cs), the eigenvector of the least eigenvalue. -/
noncomputable def EigenvectorOfLeastEigenvalue (a b c : ℝ) : Vector2D :=
  let df := a - c
  let rt := Real.sqrt (df * df + b * b * 4)
  let cs0 := if df > 0 then df + rt else df - rt
  let p :=
    if |cs0| > |b| * 2 then
      let t := -b * 2 / cs0
      let sn := 1 / Real.sqrt (t * t + 1)
      (t * sn, sn)
    else if |b| = 0 then ((1 : ℝ), (0 : ℝ))
    else
      let t := -cs0 / b / 2
      let cs := 1 / Real.sqrt (t * t + 1)
      (cs, t * cs)
  let q := if df > 0 then (-p.2, p.1) else p
  ⟨-q.2, q.1⟩

/-- PCAEstimateNormal (src/unnamed/part_000 lines 120-182): estimates the
normal direction by the weighted PCA method; when the accumulated weight
sum is zero it falls back to the default normal (0, 1) (lines 146-149),
otherwise it returns the least eigenvector of the scaled covariance. -/
noncomputable def PCAEstimateNormal (points : List Point2D) (weights : List ℝ) : Vector2D :=
  if weightSum points weights = 0 then ⟨0, 1⟩
  else
    EigenvectorOfLeastEigenvalue (covA points weights) (covB points weights)
      (covC points weights)

/-- PCAEstimateNormal behind its asserts (lines 126-128): none when an
assert fires (empty input or mismatched array sizes). -/
noncomputable def PCAEstimateNormalChecked (points : List Point2D) (weights : List ℝ) :
    Option Vector2D :=
  if points.length = 0 ∨ points.length ≠ weights.length then none
  else some (PCAEstimateNormal points weights)

/-- The unit-weight overload of PCAEstimateNormal (lines 190-196):
Array(points.size(), 1) weights. -/
noncomputable def PCAEstimateNormal1 (points : List Point2D) : Vector2D :=
  PCAEstimateNormal points (List.replicate points.length 1)

/-- Squared Euclidean distance between two points. -/
def sqDist (p q : Point2D) : ℝ :=
  (p.x - q.x) * (p.x - q.x) + (p.y - q.y) * (p.y - q.y)

/-- Indexing into the point array (reads are always in bounds in the
embedded code; the default is never reached there). -/
def nthPoint (points : List Point2D) (i : ℕ) : Point2D := points.getD i ⟨0, 0⟩

/-- Indexing into the normal array. -/
def nthNormal (normals : List Vector2D) (i : ℕ) : Vector2D := normals.getD i ⟨0, 0⟩

/-- Modelled from the spec: codelibrary/util/tree/kd_tree.h is not under
src.  KDTree::FindKNearestNeighbors follows the spec interface
kNearestNeighbors(query, k): the ordered sequence of the k point indices
nearest to the query, sorted by distance (ties broken by smaller index). -/
noncomputable def FindKNearestNeighbors (points : List Point2D) (q : Point2D) (k : ℕ) :
    List ℕ :=
  (List.insertionSort
    (fun i j => sqDist (nthPoint points i) q < sqDist (nthPoint points j) q ∨
      (sqDist (nthPoint points i) q = sqDist (nthPoint points j) q ∧ i ≤ j))
    (List.range points.length)).take k

/-- PCAEstimateNormals (src/unnamed/part_000 lines 209-230): clamp k to
the point count n (line 219), resize the output to n, and for each i
write into slot i the unit-weight PCA normal of the k nearest neighbors
of point i. -/
noncomputable def PCAEstimateNormals (points : List Point2D) (k : ℕ) : List Vector2D :=
  (List.range points.length).foldl
    (fun normals i =>
      normals.set i
        (PCAEstimateNormal1
          ((FindKNearestNeighbors points (nthPoint points i) (min k points.length)).map
            (nthPoint points))))
    (List.replicate points.length default)

/-- PCAEstimateNormals behind its asserts (lines 214-216): none when the
tree is empty or k is not positive. -/
noncomputable def PCAEstimateNormalsChecked (points : List Point2D) (k : ℕ) :
    Option (List Vector2D) :=
  if points.length = 0 ∨ k = 0 then none else some (PCAEstimateNormals points k)

/-- The orientation filter of OrientationAwarePCAEstimateNormals
(src/unnamed/part_000 lines 276-282): the neighbor indices of point i
whose current normal has non-negative dot product with the current normal
at i. -/
noncomputable def OAfiltered (points : List Point2D) (k : ℕ) (normals : List Vector2D)
    (i : ℕ) : List ℕ :=
  (FindKNearestNeighbors points (nthPoint points i) k).filter
    (fun j => decide (0 ≤ Vector2D.dot (nthNormal normals i) (nthNormal normals j)))

/-- One iteration of the loop of OrientationAwarePCAEstimateNormals
(lines 273-291): re-fit the normal from the orientation-filtered
neighbors and write it into slot i, negated when its dot product with the
current normal at i is negative. -/
noncomputable def OAStep (points : List Point2D) (k : ℕ) (normals : List Vector2D)
    (i : ℕ) : List Vector2D :=
  let normal := PCAEstimateNormal1 ((OAfiltered points k normals i).map (nthPoint points))
  normals.set i
    (if Vector2D.dot normal (nthNormal normals i) < 0 then -normal else normal)

/-- The normal array after the first m iterations of
OrientationAwarePCAEstimateNormals, with k clamped to the point count
(line 268). -/
noncomputable def OArunTo (points : List Point2D) (k : ℕ) (normals0 : List Vector2D)
    (m : ℕ) : List Vector2D :=
  (List.range m).foldl (OAStep points (min k points.length)) normals0

/-- OrientationAwarePCAEstimateNormals (src/unnamed/part_000 lines
256-292): run the re-orientation loop over all point indices. -/
noncomputable def OrientationAwarePCAEstimateNormals (points : List Point2D) (k : ℕ)
    (normals0 : List Vector2D) : List Vector2D :=
  OArunTo points k normals0 points.length

/-- OrientationAwarePCAEstimateNormals behind its asserts (lines 262-265). -/
noncomputable def OrientationAwarePCAEstimateNormalsChecked (points : List Point2D)
    (k : ℕ) (normals0 : List Vector2D) : Option (List Vector2D) :=
  if points.length = 0 ∨ k = 0 ∨ normals0.length ≠ points.length then none
  else some (OrientationAwarePCAEstimateNormals points k normals0)

/-- The smaller eigenvalue of the symmetric matrix [[a,b],[b,c]]. -/
noncomputable def smallestEigenvalue (a b c : ℝ) : ℝ :=
  (a + c - Real.sqrt ((a - c) * (a - c) + b * b * 4)) / 2

/-- The vector v is a nonzero eigenvector of [[a,b],[b,c]] with
eigenvalue mu. -/
def IsEigenpair (a b c mu : ℝ) (v : Vector2D) : Prop :=
  (v.x ≠ 0 ∨ v.y ≠ 0) ∧ a * v.x + b * v.y = mu * v.x ∧ b * v.x + c * v.y = mu * v.y

/-- Modelled from the spec: the Global-L0 extractor source (the energy
model of section 4.3) is not under src.  The energy terms over n points
and m candidate models: per-point data cost, fixed outlier penalty, the
pairwise smoothness cost over the neighbor-graph edges, and the penalty
weight of the model-count (L0) term. -/
structure EnergyModel (n m : ℕ) where
  dataCost : Fin n → Fin m → ℝ
  outlierPenalty : ℝ
  smoothCost : Fin n → Fin n → ℝ
  edges : Finset (Fin n × Fin n)
  modelPenalty : ℝ

/-- A labeling: each point gets a model id or the outlier sentinel
(none), per the spec data model. -/
abbrev Labeling (n m : ℕ) := Fin n → Option (Fin m)

/-- Modelled from the spec (section 4.3): total energy = data costs of
labeled points + outlier penalties of outlier points + smoothness costs
of edges with differing labels + modelPenalty times the number of active
(non-empty) models. -/
noncomputable def totalEnergy {n m : ℕ} (E : EnergyModel n m) (L : Labeling n m) : ℝ :=
  (Finset.univ.sum fun p : Fin n =>
    match L p with
    | some q => E.dataCost p q
    | none => E.outlierPenalty)
  + E.edges.sum (fun e => if L e.1 = L e.2 then 0 else E.smoothCost e.1 e.2)
  + E.modelPenalty * (Finset.univ.filter fun q : Fin m => ∃ p, L p = some q).card

/-- Modelled from the spec (section 4.4): a proposed relabeling is
accepted only when it does not worsen the total energy, otherwise the
current labeling is kept. -/
noncomputable def acceptIfNotWorse {n m : ℕ} (E : EnergyModel n m)
    (cur proposed : Labeling n m) : Labeling n m :=
  if totalEnergy E proposed ≤ totalEnergy E cur then proposed else cur

/-- Modelled from the spec (section 4.4): one pass of the label
optimizer: for each model in turn (one entry of moves per model,
including the outlier sentinel), attempt its expansion move and accept it
only when it does not worsen the energy. -/
noncomputable def optimizerPass {n m : ℕ} (E : EnergyModel n m)
    (moves : List (Labeling n m → Labeling n m)) (L : Labeling n m) : Labeling n m :=
  moves.foldl (fun acc mv => acceptIfNotWorse E acc (mv acc)) L

/-- Modelled from the spec (section 4.6): the iterations of the
extraction loop, each running one optimizer pass. -/
noncomputable def extractIter {n m : ℕ} (E : EnergyModel n m)
    (moves : List (Labeling n m → Labeling n m)) (L0 : Labeling n m) :
    ℕ → Labeling n m
  | 0 => L0
  | i + 1 => optimizerPass E moves (extractIter E moves L0 i)

/-- Packing four bytes with disjoint shifts and bitwise or equals the
corresponding sum. -/
theorem pack_bytes_eq_sum (a r g b : ℕ) (ha : a < 256) (hr : r < 256)
    (hg : g < 256) (hb : b < 256) :
    ((a <<< 24) ||| (r <<< 16) ||| (g <<< 8) ||| b)
      = a * 2 ^ 24 + r * 2 ^ 16 + g * 2 ^ 8 + b := by
  have e1 : g <<< 8 ||| b = 2 ^ 8 * g + b := by
    rw [Nat.shiftLeft_eq, Nat.mul_comm, ← Nat.mul_add_lt_is_or (by omega) g]
  have e2 : r <<< 16 ||| (2 ^ 8 * g + b) = 2 ^ 16 * r + (2 ^ 8 * g + b) := by
    rw [Nat.shiftLeft_eq, Nat.mul_comm, ← Nat.mul_add_lt_is_or (by omega) r]
  have e3 : a <<< 24 ||| (2 ^ 16 * r + (2 ^ 8 * g + b))
      = 2 ^ 24 * a + (2 ^ 16 * r + (2 ^ 8 * g + b)) := by
    rw [Nat.shiftLeft_eq, Nat.mul_comm, ← Nat.mul_add_lt_is_or (by omega) a]
  rw [Nat.or_assoc, Nat.or_assoc, e1, e2, e3]
  ring

/-- Witness that pack_bytes_eq_sum applies at a concrete byte tuple. -/
theorem pack_bytes_eq_sum_witness :
    ((255 <<< 24) ||| (1 <<< 16) ||| (2 <<< 8) ||| 3)
      = 255 * 2 ^ 24 + 1 * 2 ^ 16 + 2 * 2 ^ 8 + 3 :=
  pack_bytes_eq_sum 255 1 2 3 (by decide) (by decide) (by decide) (by decide)

/-- C9: packing an RGB32Color into a single 32-bit int and unpacking it
round-trips: for every RGB32Color c, RGB32Color(c.ToInt()) equals c, the
signed shifts modeled as arithmetic modulo 2 to the 32. -/
theorem rgb32Color_ofInt_toInt_roundtrip (c : RGB32Color) :
    RGB32Color.ofInt c.ToInt = c := by
  obtain ⟨⟨r, hr⟩, ⟨g, hg⟩, ⟨b, hb⟩, ⟨a, ha⟩⟩ := c
  simp only [RGB32Color.ToInt, RGB32Color.ofInt, toSigned32,
    pack_bytes_eq_sum a r g b ha hr hg hb]
  split_ifs with h <;>
    · simp only [RGB32Color.mk.injEq, Fin.mk.injEq]
      refine ⟨?_, ?_, ?_, ?_⟩ <;> omega

/-- C10: ToGrayScale returns the integer quotient
(11 * red + 16 * green + 5 * blue) / 32, a value between 0 and 255. -/
theorem rgb32Color_toGrayScale_formula_and_range (c : RGB32Color) :
    c.ToGrayScale = (11 * (c.red_.val : ℤ) + 16 * (c.green_.val : ℤ)
        + 5 * (c.blue_.val : ℤ)) / 32
      ∧ 0 ≤ c.ToGrayScale ∧ c.ToGrayScale ≤ 255 := by
  obtain ⟨⟨r, hr⟩, ⟨g, hg⟩, ⟨b, hb⟩, ⟨a, ha⟩⟩ := c
  refine ⟨?_, ?_, ?_⟩ <;> simp only [RGB32Color.ToGrayScale] <;> omega

/-- A getD read of a freshly set slot returns the written value when the
index is in bounds. -/
theorem nthNormal_set_self (l : List Vector2D) (i : ℕ) (v : Vector2D)
    (h : i < l.length) : nthNormal (l.set i v) i = v := by
  simp [nthNormal, List.getD_eq_getElem?_getD, List.getElem?_set_self h]

/-- A getD read of a slot other than the one just set is unchanged. -/
theorem nthNormal_set_ne (l : List Vector2D) (i j : ℕ) (hij : i ≠ j) (v : Vector2D) :
    nthNormal (l.set i v) j = nthNormal l j := by
  simp [nthNormal, List.getD_eq_getElem?_getD, List.getElem?_set_ne hij]

/-- One accepted-or-rejected move of the label optimizer never increases
the total energy. -/
theorem totalEnergy_acceptIfNotWorse_le {n m : ℕ} (E : EnergyModel n m)
    (cur proposed : Labeling n m) :
    totalEnergy E (acceptIfNotWorse E cur proposed) ≤ totalEnergy E cur := by
  unfold acceptIfNotWorse
  split_ifs with h
  · exact h
  · exact le_refl _

/-- A full optimizer pass never increases the total energy. -/
theorem totalEnergy_optimizerPass_le {n m : ℕ} (E : EnergyModel n m)
    (moves : List (Labeling n m → Labeling n m)) (L : Labeling n m) :
    totalEnergy E (optimizerPass E moves L) ≤ totalEnergy E L := by
  induction moves generalizing L with
  | nil => exact le_refl _
  | cons mv rest ih =>
      exact le_trans (ih (acceptIfNotWorse E L (mv L)))
        (totalEnergy_acceptIfNotWorse_le E L (mv L))

/-- C3: monotone descent of the extraction loop: for every iteration i,
the total energy (data + smoothness + outlier + model-count terms) at
step i+1 is at most the total energy at step i. -/
theorem extractLoop_energy_monotone {n m : ℕ} (E : EnergyModel n m)
    (moves : List (Labeling n m → Labeling n m)) (L0 : Labeling n m) (i : ℕ) :
    totalEnergy E (extractIter E moves L0 (i + 1))
      ≤ totalEnergy E (extractIter E moves L0 i) :=
  totalEnergy_optimizerPass_le E moves (extractIter E moves L0 i)

/-- The weight sum accumulated by the loop equals the sum of the weight
array when the two arrays have equal length. -/
theorem weightSum_eq_sum (points : List Point2D) (weights : List ℝ)
    (h : points.length = weights.length) :
    weightSum points weights = weights.sum := by
  unfold weightSum
  induction points generalizing weights with
  | nil =>
      cases weights with
      | nil => simp
      | cons w ws => simp at h
  | cons p ps ih =>
      cases weights with
      | nil => simp at h
      | cons w ws =>
          simp only [List.zipWith_cons_cons, List.sum_cons]
          rw [ih ws (by simpa using h)]

/-- C4: on a non-empty point list whose weights sum to zero,
PCAEstimateNormal passes its asserts and takes the zero-weight fallback,
writing the default unit normal (0, 1) instead of dividing by the zero
weight sum. -/
theorem pcaEstimateNormal_zero_weight_fallback (points : List Point2D)
    (weights : List ℝ) (hne : points ≠ [])
    (hlen : points.length = weights.length) (hsum : weights.sum = 0) :
    PCAEstimateNormalChecked points weights = some ⟨0, 1⟩ := by
  have h0 : points.length ≠ 0 := by
    intro h
    exact hne (List.length_eq_zero.mp h)
  unfold PCAEstimateNormalChecked
  rw [if_neg (by push_neg; exact ⟨h0, hlen⟩)]
  unfold PCAEstimateNormal
  rw [if_pos (by rw [weightSum_eq_sum points weights hlen]; exact hsum)]

/-- Witness for C4 at a concrete input: one point with weight zero. -/
theorem pcaEstimateNormal_zero_weight_fallback_witness :
    ([⟨1, 2⟩] : List Point2D) ≠ [] ∧ ([(0 : ℝ)]).sum = 0 ∧
    PCAEstimateNormalChecked [⟨1, 2⟩] [(0 : ℝ)] = some ⟨0, 1⟩ :=
  ⟨by simp, by simp,
    pcaEstimateNormal_zero_weight_fallback [⟨1, 2⟩] [(0 : ℝ)] (by simp) (by simp) (by simp)⟩

/-- C5 counterexample: on an empty KD-tree the normal-estimation step
does not complete: the assert that the tree is non-empty fires (the
checked function returns none) instead of the function running through. -/
theorem pcaEstimateNormals_empty_aborts :
    PCAEstimateNormalsChecked [] 30 = none := by
  unfold PCAEstimateNormalsChecked
  simp

/-- C5 amended: with zero points the normal-estimation step asserts
non-emptiness and aborts (checked semantics: none); only with asserts
disabled does the loop body run zero times and produce the empty normal
array. -/
theorem pcaEstimateNormals_empty_behavior (k : ℕ) :
    PCAEstimateNormalsChecked [] k = none ∧ PCAEstimateNormals [] k = [] := by
  constructor
  · unfold PCAEstimateNormalsChecked
    simp
  · unfold PCAEstimateNormals
    simp

/-- C6: the neighbor count used per point is clamped to the point count:
any k larger than n produces the same output as k = n, both for
PCAEstimateNormals and for OrientationAwarePCAEstimateNormals. -/
theorem kneighbors_clamped (points : List Point2D) (normals0 : List Vector2D)
    (k : ℕ) (hne : points ≠ []) (hk : points.length < k) :
    PCAEstimateNormals points k = PCAEstimateNormals points points.length ∧
    OrientationAwarePCAEstimateNormals points k normals0 =
      OrientationAwarePCAEstimateNormals points points.length normals0 := by
  have h : min k points.length = min points.length points.length := by omega
  constructor
  · unfold PCAEstimateNormals
    rw [h]
  · unfold OrientationAwarePCAEstimateNormals OArunTo
    rw [h]

/-- Witness for C6 at a concrete input: one point, k = 5. -/
theorem kneighbors_clamped_witness :
    ([⟨0, 0⟩] : List Point2D).length < 5 ∧
    PCAEstimateNormals [⟨0, 0⟩] 5 = PCAEstimateNormals [⟨0, 0⟩] ([⟨0, 0⟩] : List Point2D).length := by
  refine ⟨by simp, ?_⟩
  exact (kneighbors_clamped [⟨0, 0⟩] [⟨0, 1⟩] 5 (by simp) (by simp)).1

/-- Normalizing a direction (t, 1) by 1/sqrt(t*t+1) yields a vector of
exactly unit squared length. -/
theorem normalized_pair_unit (t : ℝ) :
    (t * (1 / Real.sqrt (t * t + 1))) ^ 2 + (1 / Real.sqrt (t * t + 1)) ^ 2 = 1 := by
  have h0 : (0:ℝ) < t * t + 1 := by nlinarith [mul_self_nonneg t]
  have hne : Real.sqrt (t * t + 1) ≠ 0 := Real.sqrt_ne_zero'.mpr h0
  field_simp
  ring

/-- The eigensolver always returns a vector of exactly unit squared
length, in every branch. -/
theorem eigenvector_unit (a b c : ℝ) :
    (EigenvectorOfLeastEigenvalue a b c).x ^ 2 + (EigenvectorOfLeastEigenvalue a b c).y ^ 2 = 1 := by
  simp only [EigenvectorOfLeastEigenvalue]
  split_ifs with hdf hA hb <;> dsimp only
  · linear_combination normalized_pair_unit
      (-b * 2 / (a - c + Real.sqrt ((a - c) * (a - c) + b * b * 4)))
  · norm_num
  · linear_combination normalized_pair_unit
      (-(a - c + Real.sqrt ((a - c) * (a - c) + b * b * 4)) / b / 2)
  · linear_combination normalized_pair_unit
      (-b * 2 / (a - c - Real.sqrt ((a - c) * (a - c) + b * b * 4)))
  · norm_num
  · linear_combination normalized_pair_unit
      (-(a - c - Real.sqrt ((a - c) * (a - c) + b * b * 4)) / b / 2)

/-- The eigensolver output satisfies both coordinate equations of the
eigenvector equation for the smaller eigenvalue of [[a,b],[b,c]]. -/
theorem eigenvector_eigen (a b c : ℝ) :
    a * (EigenvectorOfLeastEigenvalue a b c).x + b * (EigenvectorOfLeastEigenvalue a b c).y
      = smallestEigenvalue a b c * (EigenvectorOfLeastEigenvalue a b c).x ∧
    b * (EigenvectorOfLeastEigenvalue a b c).x + c * (EigenvectorOfLeastEigenvalue a b c).y
      = smallestEigenvalue a b c * (EigenvectorOfLeastEigenvalue a b c).y := by
  have hnn : (0:ℝ) ≤ (a - c) * (a - c) + b * b * 4 := by
    nlinarith [mul_self_nonneg (a - c), mul_self_nonneg b]
  have hrt2 : Real.sqrt ((a - c) * (a - c) + b * b * 4)
      * Real.sqrt ((a - c) * (a - c) + b * b * 4) = (a - c) * (a - c) + b * b * 4 :=
    Real.mul_self_sqrt hnn
  have hrt0 : 0 ≤ Real.sqrt ((a - c) * (a - c) + b * b * 4) := Real.sqrt_nonneg _
  simp only [EigenvectorOfLeastEigenvalue, smallestEigenvalue]
  set rt := Real.sqrt ((a - c) * (a - c) + b * b * 4) with hrtdef
  split_ifs with hdf hA hb hA2 hb2 <;> dsimp only
  · have hcs0 : a - c + rt ≠ 0 := by
      have h2 : (0:ℝ) ≤ |b| * 2 := by positivity
      exact abs_pos.mp (lt_of_le_of_lt h2 hA)
    set t := -b * 2 / (a - c + rt) with ht
    have key1 : a * t + b = (a + c - rt) / 2 * t := by
      rw [ht]; field_simp; ring
    have key2 : b * t + c = (a + c - rt) / 2 := by
      rw [ht]; field_simp; linear_combination hrt2
    constructor
    · linear_combination (-(1 / Real.sqrt (t * t + 1))) * key1
    · linear_combination (-(1 / Real.sqrt (t * t + 1))) * key2
  · exfalso
    have hb0 : b = 0 := abs_eq_zero.mp hb
    have hle : |a - c + rt| ≤ 0 := by
      rw [hb0] at hA
      simpa using not_lt.mp hA
    have h0 : a - c + rt = 0 := abs_eq_zero.mp (le_antisymm hle (abs_nonneg _))
    linarith
  · have hbne : b ≠ 0 := by simpa using hb
    set t := -(a - c + rt) / b / 2 with ht
    have key1 : a + b * t = (a + c - rt) / 2 := by
      rw [ht]; field_simp; ring
    have key2 : b + c * t = (a + c - rt) / 2 * t := by
      rw [ht]; field_simp; linear_combination (-2 * b) * hrt2
    constructor
    · linear_combination (-(1 / Real.sqrt (t * t + 1))) * key1
    · linear_combination (-(1 / Real.sqrt (t * t + 1))) * key2
  · have hcs0 : a - c - rt ≠ 0 := by
      have h2 : (0:ℝ) ≤ |b| * 2 := by positivity
      exact abs_pos.mp (lt_of_le_of_lt h2 hA2)
    set t := -b * 2 / (a - c - rt) with ht
    have key1 : a - b * t = (a + c - rt) / 2 := by
      rw [ht]; field_simp; linear_combination -hrt2
    have key2 : c * t - b = (a + c - rt) / 2 * t := by
      rw [ht]; field_simp; ring
    constructor
    · linear_combination (-(1 / Real.sqrt (t * t + 1))) * key1
    · linear_combination (1 / Real.sqrt (t * t + 1)) * key2
  · have hb0 : b = 0 := abs_eq_zero.mp hb2
    have hle : |a - c - rt| ≤ 0 := by
      rw [hb0] at hA2
      simpa using not_lt.mp hA2
    have h0 : a - c - rt = 0 := abs_eq_zero.mp (le_antisymm hle (abs_nonneg _))
    have hd : a - c ≤ 0 := not_lt.mp hdf
    constructor
    · norm_num [hb0]
    · norm_num
      linarith
  · have hbne : b ≠ 0 := by simpa using hb2
    set t := -(a - c - rt) / b / 2 with ht
    have key1 : a * t - b = (a + c - rt) / 2 * t := by
      rw [ht]; field_simp; linear_combination (2 * b) * hrt2
    have key2 : c - b * t = (a + c - rt) / 2 := by
      rw [ht]; field_simp; ring
    constructor
    · linear_combination (-(1 / Real.sqrt (t * t + 1))) * key1
    · linear_combination (1 / Real.sqrt (t * t + 1)) * key2

/-- Any eigenvalue of [[a,b],[b,c]] (witnessed by a nonzero eigenvector)
is at least smallestEigenvalue a b c. -/
theorem smallestEigenvalue_le (a b c mu : ℝ) (v : Vector2D)
    (hv : v.x ≠ 0 ∨ v.y ≠ 0)
    (h1 : a * v.x + b * v.y = mu * v.x) (h2 : b * v.x + c * v.y = mu * v.y) :
    smallestEigenvalue a b c ≤ mu := by
  have hnn : (0:ℝ) ≤ (a - c) * (a - c) + b * b * 4 := by
    nlinarith [mul_self_nonneg (a - c), mul_self_nonneg b]
  have hrt2 : Real.sqrt ((a - c) * (a - c) + b * b * 4)
      * Real.sqrt ((a - c) * (a - c) + b * b * 4) = (a - c) * (a - c) + b * b * 4 :=
    Real.mul_self_sqrt hnn
  have hrt0 : 0 ≤ Real.sqrt ((a - c) * (a - c) + b * b * 4) := Real.sqrt_nonneg _
  simp only [smallestEigenvalue]
  set rt := Real.sqrt ((a - c) * (a - c) + b * b * 4) with hrtdef
  have hchar : (a - mu) * (c - mu) = b * b := by
    by_cases hx : v.x = 0
    · have hy : v.y ≠ 0 := hv.resolve_left (not_not_intro hx)
      have hb0 : b = 0 := by
        have h3 : b * v.y = 0 := by rw [hx] at h1; linarith
        exact (mul_eq_zero.mp h3).resolve_right hy
      have hc : c = mu := by
        have h3 : (c - mu) * v.y = 0 := by rw [hx] at h2; linarith
        have h4 := (mul_eq_zero.mp h3).resolve_right hy
        linarith
      rw [hb0, hc]
      ring
    · by_cases hy : v.y = 0
      · have hb0 : b = 0 := by
          have h3 : b * v.x = 0 := by rw [hy] at h2; linarith
          exact (mul_eq_zero.mp h3).resolve_right hx
        have ha : a = mu := by
          have h3 : (a - mu) * v.x = 0 := by rw [hy] at h1; linarith
          have h4 := (mul_eq_zero.mp h3).resolve_right hx
          linarith
        rw [hb0, ha]
        ring
      · have key : ((a - mu) * (c - mu) - b * b) * (v.x * v.y) = 0 := by
          linear_combination ((c - mu) * v.y) * h1 - (b * v.y) * h2
        have h3 := (mul_eq_zero.mp key).resolve_right (mul_ne_zero hx hy)
        linarith
  have hsq : (a + c - 2 * mu - rt) * (a + c - 2 * mu + rt) = 0 := by
    linear_combination 4 * hchar - hrt2
  rcases mul_eq_zero.mp hsq with h | h
  · linarith
  · linarith

/-- The eigensolver output is nonzero (it has unit length). -/
theorem eigenvector_ne_zero (a b c : ℝ) :
    (EigenvectorOfLeastEigenvalue a b c).x ≠ 0 ∨ (EigenvectorOfLeastEigenvalue a b c).y ≠ 0 := by
  by_contra h
  push_neg at h
  have hu := eigenvector_unit a b c
  rw [h.1, h.2] at hu
  norm_num at hu

/-- PCAEstimateNormal always writes a normal of exactly unit squared
length, also in the zero-weight fallback branch. -/
theorem pcaEstimateNormal_unit (points : List Point2D) (weights : List ℝ) :
    (PCAEstimateNormal points weights).x ^ 2 + (PCAEstimateNormal points weights).y ^ 2 = 1 := by
  unfold PCAEstimateNormal
  split_ifs
  · norm_num
  · exact eigenvector_unit _ _ _

/-- C1: for a non-empty point list with non-negative weights of positive
total, the vector written by PCAEstimateNormal is a (nonzero) eigenvector
of the weighted covariance matrix, centered at the weighted centroid,
for that matrix's smallest eigenvalue. -/
theorem pcaEstimateNormal_least_eigenvector (points : List Point2D) (weights : List ℝ)
    (hne : points ≠ []) (hlen : points.length = weights.length)
    (hw : ∀ w ∈ weights, 0 ≤ w) (hpos : 0 < weightSum points weights) :
    IsEigenpair (covA points weights) (covB points weights) (covC points weights)
      (smallestEigenvalue (covA points weights) (covB points weights) (covC points weights))
      (PCAEstimateNormal points weights) ∧
    (∀ mu v, IsEigenpair (covA points weights) (covB points weights) (covC points weights) mu v →
      smallestEigenvalue (covA points weights) (covB points weights) (covC points weights) ≤ mu) := by
  have hsum : weightSum points weights ≠ 0 := ne_of_gt hpos
  have hv : PCAEstimateNormal points weights
      = EigenvectorOfLeastEigenvalue (covA points weights) (covB points weights)
          (covC points weights) := by
    unfold PCAEstimateNormal
    rw [if_neg hsum]
  constructor
  · refine ⟨?_, ?_, ?_⟩
    · rw [hv]; exact eigenvector_ne_zero _ _ _
    · rw [hv]; exact (eigenvector_eigen _ _ _).1
    · rw [hv]; exact (eigenvector_eigen _ _ _).2
  · rintro mu v ⟨hvne, h1, h2⟩
    exact smallestEigenvalue_le _ _ _ mu v hvne h1 h2

/-- Witness for C1 at one point of weight one. -/
theorem pcaEstimateNormal_least_eigenvector_witness :
    0 < weightSum [⟨0, 0⟩] [(1 : ℝ)] ∧
    IsEigenpair (covA [⟨0, 0⟩] [(1 : ℝ)]) (covB [⟨0, 0⟩] [(1 : ℝ)]) (covC [⟨0, 0⟩] [(1 : ℝ)])
      (smallestEigenvalue (covA [⟨0, 0⟩] [(1 : ℝ)]) (covB [⟨0, 0⟩] [(1 : ℝ)])
        (covC [⟨0, 0⟩] [(1 : ℝ)]))
      (PCAEstimateNormal [⟨0, 0⟩] [(1 : ℝ)]) :=
  ⟨by norm_num [weightSum],
    (pcaEstimateNormal_least_eigenvector [⟨0, 0⟩] [(1 : ℝ)] (by simp) rfl
      (by norm_num) (by norm_num [weightSum])).1⟩

/-- A getD read at an in-bounds index is the list entry. -/
theorem nthNormal_eq_getElem (l : List Vector2D) (i : ℕ) (h : i < l.length) :
    nthNormal l i = l[i] := by
  simp [nthNormal, List.getD_eq_getElem?_getD, List.getElem?_eq_getElem h]

/-- A loop that writes each visited slot keeps the array length. -/
theorem foldl_set_length (g : ℕ → Vector2D) (l : List ℕ) (init : List Vector2D) :
    (l.foldl (fun acc j => acc.set j (g j)) init).length = init.length := by
  induction l generalizing init with
  | nil => rfl
  | cons j rest ih =>
      rw [List.foldl_cons, ih, List.length_set]

/-- After the loop over indices 0..n-1 writing slot j at step j, slot i
holds the value written at step i. -/
theorem foldl_set_getD (g : ℕ → Vector2D) (n : ℕ) (init : List Vector2D)
    (hlen : n ≤ init.length) :
    ∀ i, i < n →
      nthNormal ((List.range n).foldl (fun acc j => acc.set j (g j)) init) i = g i := by
  induction n with
  | zero =>
      intro i hi
      omega
  | succ nn ih =>
      intro i hi
      rw [List.range_succ, List.foldl_append, List.foldl_cons, List.foldl_nil]
      by_cases hin : i = nn
      · subst hin
        apply nthNormal_set_self
        rw [foldl_set_length]
        omega
      · rw [nthNormal_set_ne _ _ _ (show nn ≠ i from fun h => hin h.symm)]
        exact ih (by omega) i (by omega)

/-- PCAEstimateNormals resizes the output to the point count. -/
theorem PCAEstimateNormals_length (points : List Point2D) (k : ℕ) :
    (PCAEstimateNormals points k).length = points.length := by
  unfold PCAEstimateNormals
  rw [foldl_set_length]
  exact List.length_replicate _ _

/-- Slot i of the PCAEstimateNormals output is the PCA normal of the
clamped k nearest neighbors of point i. -/
theorem PCAEstimateNormals_entry (points : List Point2D) (k i : ℕ)
    (hi : i < points.length) :
    nthNormal (PCAEstimateNormals points k) i
      = PCAEstimateNormal1
          ((FindKNearestNeighbors points (nthPoint points i) (min k points.length)).map
            (nthPoint points)) := by
  unfold PCAEstimateNormals
  exact foldl_set_getD _ _ _ (by simp) i hi

/-- C7: on a non-empty tree with k at least 1, PCAEstimateNormals
outputs exactly n normals, index-aligned: entry i is the PCA normal
computed from the clamped k nearest neighbors of point i. -/
theorem pcaEstimateNormals_index_aligned (points : List Point2D) (k : ℕ)
    (hne : points ≠ []) (hk : 1 ≤ k) :
    (PCAEstimateNormals points k).length = points.length ∧
    ∀ i, i < points.length →
      nthNormal (PCAEstimateNormals points k) i
        = PCAEstimateNormal1
            ((FindKNearestNeighbors points (nthPoint points i) (min k points.length)).map
              (nthPoint points)) :=
  ⟨PCAEstimateNormals_length points k, fun i hi => PCAEstimateNormals_entry points k i hi⟩

/-- Witness for C7 with one point and k = 1. -/
theorem pcaEstimateNormals_index_aligned_witness :
    ([⟨0, 0⟩] : List Point2D) ≠ [] ∧ (PCAEstimateNormals [⟨0, 0⟩] 1).length = 1 :=
  ⟨by simp, (pcaEstimateNormals_index_aligned [⟨0, 0⟩] 1 (by simp) (le_refl 1)).1⟩

/-- C2: the normal written by PCAEstimateNormal has exact unit Euclidean
length for every input, including the zero-total-weight fallback branch,
so every entry of the array produced by PCAEstimateNormals is a unit
vector. -/
theorem pcaEstimateNormal_always_unit :
    (∀ points weights, (PCAEstimateNormal points weights).x ^ 2
        + (PCAEstimateNormal points weights).y ^ 2 = 1) ∧
    (∀ points k v, v ∈ PCAEstimateNormals points k → v.x ^ 2 + v.y ^ 2 = 1) := by
  constructor
  · exact pcaEstimateNormal_unit
  · intro points k v hvmem
    obtain ⟨i, hi, hv⟩ := List.mem_iff_getElem.mp hvmem
    have hi2 : i < points.length := by
      rw [PCAEstimateNormals_length points k] at hi
      exact hi
    have he := PCAEstimateNormals_entry points k i hi2
    rw [nthNormal_eq_getElem _ _ hi, hv] at he
    rw [he]
    unfold PCAEstimateNormal1
    exact pcaEstimateNormal_unit _ _

/-- Evaluation of the eigensolver on the zero matrix: branch b = 0 gives
the vector (0, 1). -/
theorem eigen_zero_eval : EigenvectorOfLeastEigenvalue 0 0 0 = ⟨0, 1⟩ := by
  unfold EigenvectorOfLeastEigenvalue
  norm_num [Real.sqrt_zero]

/-- Evaluation of the neighbor query on a single-point cloud. -/
theorem knn_singleton (p q : Point2D) : FindKNearestNeighbors [p] q 1 = [0] := by
  unfold FindKNearestNeighbors
  simp [List.insertionSort, List.orderedInsert]

/-- Evaluation of PCAEstimateNormal on one point of weight one. -/
theorem pca_singleton_eval : PCAEstimateNormal [⟨0, 0⟩] [(1 : ℝ)] = ⟨0, 1⟩ := by
  have ha : covA [⟨0, 0⟩] [(1 : ℝ)] = 0 := by
    norm_num [covA, Centroid, weightSum]
  have hb : covB [⟨0, 0⟩] [(1 : ℝ)] = 0 := by
    norm_num [covB, Centroid, weightSum]
  have hc : covC [⟨0, 0⟩] [(1 : ℝ)] = 0 := by
    norm_num [covC, Centroid, weightSum]
  unfold PCAEstimateNormal
  rw [if_neg (by norm_num [weightSum]), ha, hb, hc]
  exact eigen_zero_eval

/-- Evaluation of PCAEstimateNormals on a single-point cloud. -/
theorem pcas_singleton_eval : PCAEstimateNormals [⟨0, 0⟩] 1 = [⟨0, 1⟩] := by
  unfold PCAEstimateNormals
  have h1 : ([⟨0, 0⟩] : List Point2D).length = 1 := rfl
  rw [h1]
  have h2 : List.range 1 = [0] := rfl
  rw [h2]
  simp only [List.foldl_cons, List.foldl_nil, min_self]
  rw [knn_singleton]
  simp only [List.map_cons, List.map_nil, nthPoint, List.getD]
  norm_num [PCAEstimateNormal1]
  rw [pca_singleton_eval]

/-- Witness for C2: the single entry of the singleton-cloud output is a
unit vector. -/
theorem pcaEstimateNormal_always_unit_witness :
    (⟨0, 1⟩ : Vector2D) ∈ PCAEstimateNormals [⟨0, 0⟩] 1 ∧
    (⟨0, 1⟩ : Vector2D).x ^ 2 + (⟨0, 1⟩ : Vector2D).y ^ 2 = 1 :=
  ⟨by rw [pcas_singleton_eval]; exact List.mem_singleton_self _,
   pcaEstimateNormal_always_unit.2 [⟨0, 0⟩] 1 ⟨0, 1⟩
     (by rw [pcas_singleton_eval]; exact List.mem_singleton_self _)⟩

/-- Negating the left argument negates the dot product. -/
theorem dot_neg_left (u v : Vector2D) :
    Vector2D.dot (-u) v = -(Vector2D.dot u v) := by
  show Vector2D.dot (Vector2D.neg u) v = -(Vector2D.dot u v)
  simp only [Vector2D.dot, Vector2D.neg]
  ring

/-- One OrientationAware iteration keeps the normal-array length. -/
theorem OAStep_length (points : List Point2D) (k : ℕ) (normals : List Vector2D) (i : ℕ) :
    (OAStep points k normals i).length = normals.length := by
  simp [OAStep]

/-- Unrolling one iteration of the OrientationAware loop. -/
theorem OArunTo_succ (points : List Point2D) (k : ℕ) (normals0 : List Vector2D) (m : ℕ) :
    OArunTo points k normals0 (m + 1)
      = OAStep points (min k points.length) (OArunTo points k normals0 m) m := by
  unfold OArunTo
  rw [List.range_succ, List.foldl_append, List.foldl_cons, List.foldl_nil]

/-- The OrientationAware loop keeps the normal-array length. -/
theorem OArunTo_length (points : List Point2D) (k : ℕ) (normals0 : List Vector2D) (m : ℕ) :
    (OArunTo points k normals0 m).length = normals0.length := by
  induction m with
  | zero => rfl
  | succ mm ih => rw [OArunTo_succ, OAStep_length, ih]

/-- A slot at or beyond the current iteration count is still the input
normal: each iteration only writes its own slot. -/
theorem OArunTo_untouched (points : List Point2D) (k : ℕ) (normals0 : List Vector2D) :
    ∀ m i, m ≤ i → nthNormal (OArunTo points k normals0 m) i = nthNormal normals0 i := by
  intro m
  induction m with
  | zero =>
      intro i _
      rfl
  | succ mm ih =>
      intro i hmi
      rw [OArunTo_succ]
      simp only [OAStep]
      rw [nthNormal_set_ne _ _ _ (show mm ≠ i by omega)]
      exact ih i (by omega)

/-- A slot already written keeps its value for the rest of the loop. -/
theorem OArunTo_persist (points : List Point2D) (k : ℕ) (normals0 : List Vector2D) (i : ℕ) :
    ∀ m, i < m →
      nthNormal (OArunTo points k normals0 m) i
        = nthNormal (OArunTo points k normals0 (i + 1)) i := by
  intro m
  induction m with
  | zero =>
      intro h
      omega
  | succ mm ih =>
      intro him
      by_cases he : i = mm
      · subst he
        rfl
      · rw [OArunTo_succ]
        simp only [OAStep]
        rw [nthNormal_set_ne _ _ _ (show mm ≠ i from fun h => he h.symm)]
        exact ih (by omega)

/-- C8: OrientationAwarePCAEstimateNormals writes each slot exactly once,
at its own iteration, negating the re-fitted normal whenever its dot
product with the pre-existing normal is negative; hence the output normal
at every index has a non-negative dot product with the input normal at
that index, under the precondition that every orientation-filtered
neighbor set is non-empty. -/
theorem oapca_orientation_preserved (points : List Point2D) (k : ℕ)
    (normals0 : List Vector2D) (hne : points ≠ []) (hk : 1 ≤ k)
    (hlen : normals0.length = points.length)
    (hfil : ∀ i, i < points.length →
      OAfiltered points (min k points.length) (OArunTo points k normals0 i) i ≠ []) :
    ∀ i, i < points.length →
      0 ≤ Vector2D.dot
        (nthNormal (OrientationAwarePCAEstimateNormals points k normals0) i)
        (nthNormal normals0 i) := by
  intro i hi
  have hfin : nthNormal (OrientationAwarePCAEstimateNormals points k normals0) i
      = nthNormal (OArunTo points k normals0 (i + 1)) i := by
    unfold OrientationAwarePCAEstimateNormals
    exact OArunTo_persist points k normals0 i points.length hi
  rw [hfin, OArunTo_succ]
  simp only [OAStep]
  have hcur : nthNormal (OArunTo points k normals0 i) i = nthNormal normals0 i :=
    OArunTo_untouched points k normals0 i i (le_refl i)
  rw [nthNormal_set_self _ _ _ (by rw [OArunTo_length]; omega), hcur]
  split_ifs with hdot
  · rw [dot_neg_left]
    linarith
  · exact not_lt.mp hdot

/-- Evaluation of the orientation filter on the singleton witness input:
the single neighbor (the point itself) passes the filter. -/
theorem oafiltered_singleton_eval :
    OAfiltered [⟨0, 0⟩] 1 [⟨0, 1⟩] 0 = [0] := by
  unfold OAfiltered
  rw [knn_singleton]
  norm_num [nthNormal, Vector2D.dot, List.filter]

/-- Witness for C8 on a one-point cloud with input normal (0, 1). -/
theorem oapca_orientation_preserved_witness :
    ([⟨0, 1⟩] : List Vector2D).length = ([⟨0, 0⟩] : List Point2D).length ∧
    0 ≤ Vector2D.dot
      (nthNormal (OrientationAwarePCAEstimateNormals [⟨0, 0⟩] 1 [⟨0, 1⟩]) 0)
      (nthNormal [⟨0, 1⟩] 0) :=
  ⟨rfl,
   oapca_orientation_preserved [⟨0, 0⟩] 1 [⟨0, 1⟩] (by simp) (le_refl 1) rfl
     (by
       intro i hi
       have h0 : i = 0 := by
         simp at hi
         omega
       subst h0
       show OAfiltered [⟨0, 0⟩] 1 [⟨0, 1⟩] 0 ≠ []
       rw [oafiltered_singleton_eval]
       simp)
     0 (by norm_num)⟩
